import Mathlib

/-!
Verification of `src/strictly_upper_triangular_matrix.rs` (dograph).

The Rust module stores a strictly upper triangular boolean matrix in a
`FixedBitSet` of capacity `size * size` and offers `get`, `set`, `zeroed`,
`from_ones`, and two iterators (`iter_ones`, `iter_neighbours`).

Embedding conventions:
* The `FixedBitSet` is a `List Bool` whose length is the capacity.
  Reading a bit uses `bitGet` (the `Index` impl of `fixedbitset` returns
  `false` for out-of-range positions); writing uses `bitSet`, which asserts
  the position is in range, exactly as `FixedBitSet::set` does.
* Rust `assert!` failures (panics) are modelled as `Except.error ()`.
* `usize` arithmetic is modelled with the explicit bound `USIZE_SIZE = 2^64`.
  Overflow of the capacity computation in `zeroed` is a program error —
  debug builds panic on the multiplication, and a wrapping release build
  would allocate storage too small for the promised entries, so the
  construction fails to meet its contract either way — and is modelled as
  `Except.error ()`.  The index computation `size * i + j` is modelled with
  release-mode wrapping semantics (reduction `% USIZE_SIZE`), the value the
  compiled arithmetic actually produces; debug builds panic on exactly the
  inputs where that value wraps (the difference only matters for C9/C10,
  whose claims fail under either mode).
* The two Rust iterators are consumed only through their `next` method; we
  model each directly by the full sequence of items it yields, written as a
  recursive function whose control flow mirrors the loops of `next`.
-/

/-- Read bit `k` of a bit set: `bitset[k]` via `fixedbitset`'s `Index` impl,
which returns `false` when `k` is out of range. -/
def bitGet (bits : List Bool) (k : Nat) : Bool :=
  bits.getD k false

/-- Write bit `k` of a bit set: `FixedBitSet::set` asserts `k` is within the
capacity and panics otherwise. -/
def bitSet (bits : List Bool) (k : Nat) (v : Bool) : Except Unit (List Bool) :=
  if k < bits.length then Except.ok (bits.set k v) else Except.error ()

/-- Number of values of the Rust `usize` type (64-bit target). -/
def USIZE_SIZE : Nat := 2 ^ 64

/-- `get_index_from_row_column(i, j, size)`: asserts `i < size`, `j < size`,
`i < j`, then returns the `usize` product-sum `size * i + j`.  The three
`assert!`s are modelled as `Except.error ()`; the arithmetic is `usize`
arithmetic, which wraps on overflow in release builds, modelled by the
reduction `% USIZE_SIZE` (for every pair of every constructible matrix the
reduction is the identity, see `index_no_wrap`). -/
def get_index_from_row_column (i j size : Nat) : Except Unit Nat :=
  if i < size then
    if j < size then
      if i < j then Except.ok ((size * i + j) % USIZE_SIZE)
      else Except.error ()
    else Except.error ()
  else Except.error ()

/-- `StrictlyUpperTriangularMatrix { size: usize, matrix: FixedBitSet }`. -/
structure StrictlyUpperTriangularMatrix where
  size : Nat
  matrix : List Bool

namespace StrictlyUpperTriangularMatrix

/-- `zeroed(size)`: `capacity = size * size` (a `usize` multiplication, hence
an overflow panic when the product does not fit in the machine word), then a
zero-initialised bit set of that capacity. -/
def zeroed (size : Nat) : Except Unit StrictlyUpperTriangularMatrix :=
  if size * size < USIZE_SIZE then
    Except.ok ⟨size, List.replicate (size * size) false⟩
  else Except.error ()

/-- `get(i, j)`: map the pair through `get_index_from_row_column` and read
the bit. -/
def get (m : StrictlyUpperTriangularMatrix) (i j : Nat) : Except Unit Bool :=
  (get_index_from_row_column i j m.size).map (fun index => bitGet m.matrix index)

/-- `set(i, j, value)`: map the pair to an index, remember the current bit,
write the new one, return the previous value together with the updated
matrix (the Rust method mutates `self` in place). -/
def set (m : StrictlyUpperTriangularMatrix) (i j : Nat) (value : Bool) :
    Except Unit (Bool × StrictlyUpperTriangularMatrix) :=
  match get_index_from_row_column i j m.size with
  | Except.error e => Except.error e
  | Except.ok index =>
    (bitSet m.matrix index value).map
      (fun bits => (bitGet m.matrix index, ⟨m.size, bits⟩))

/-- `from_ones(size, ones)`: zero construction followed by `set(i, j, true)`
for each listed pair in order, the returned previous value being discarded. -/
def from_ones (size : Nat) (ones : List (Nat × Nat)) :
    Except Unit StrictlyUpperTriangularMatrix :=
  match zeroed size with
  | Except.error e => Except.error e
  | Except.ok m0 =>
    ones.foldlM (fun m p => (m.set p.1 p.2 true).map Prod.snd) m0

end StrictlyUpperTriangularMatrix

/-- The sequence of pairs an `EdgesIterator` with state `(i, j)` still yields.
This mirrors `EdgesIterator::next` exactly: while `i < size`, while
`j < size`, compute the index (whose asserts can panic), advance `j`, emit
`(i, j)` when the bit is set; when the inner guard fails, increment `i`
WITHOUT resetting `j` (the source never resets `self.j`). -/
def edgesFrom (size : Nat) (bitset : List Bool) (i j : Nat) :
    Except Unit (List (Nat × Nat)) :=
  if i < size then
    if j < size then
      match get_index_from_row_column i j size with
      | Except.error e => Except.error e
      | Except.ok index =>
        if bitGet bitset index then
          (edgesFrom size bitset i (j + 1)).map (fun l => (i, j) :: l)
        else edgesFrom size bitset i (j + 1)
    else edgesFrom size bitset (i + 1) j
  else Except.ok []
termination_by (size - i, size - j)
decreasing_by
  all_goals first
    | (apply Prod.Lex.right; omega)
    | (apply Prod.Lex.left; omega)

/-- `iter_ones()`: an `EdgesIterator::new(size, &matrix)` starts at
`i = 0, j = 1`; the yielded sequence is `edgesFrom` from that state. -/
def StrictlyUpperTriangularMatrix.iter_ones (m : StrictlyUpperTriangularMatrix) :
    Except Unit (List (Nat × Nat)) :=
  edgesFrom m.size m.matrix 0 1

/-- The sequence of vertices a `NeighboursIterator` with cursor
`right_vertex = right` still yields: while `right < size`, test
`get(left, right)` (whose asserts can panic), emit `right` when set. -/
def neighboursFrom (m : StrictlyUpperTriangularMatrix) (left right : Nat) :
    Except Unit (List Nat) :=
  if right < m.size then
    match m.get left right with
    | Except.error e => Except.error e
    | Except.ok b =>
      if b then
        (neighboursFrom m left (right + 1)).map (fun l => right :: l)
      else neighboursFrom m left (right + 1)
  else Except.ok []
termination_by m.size - right

/-- `iter_neighbours(u)`: asserts `u < size`, then the iterator starts with
`left_vertex = u`, `right_vertex = u + 1`; the yielded sequence is
`neighboursFrom` from that state. -/
def StrictlyUpperTriangularMatrix.iter_neighbours
    (m : StrictlyUpperTriangularMatrix) (u : Nat) : Except Unit (List Nat) :=
  if u < m.size then neighboursFrom m u (u + 1) else Except.error ()

/-- Capacity invariant established by `zeroed` (and preserved by `set`): the
bit storage has exactly `size * size` bits, and that capacity fits the
machine word — `zeroed` aborts otherwise, so every constructible matrix
satisfies both parts. -/
def WF (m : StrictlyUpperTriangularMatrix) : Prop :=
  m.matrix.length = m.size * m.size ∧ m.size * m.size < USIZE_SIZE

/-- A concrete well-formed 3×3 example matrix with exactly the edge (0, 1)
set (bit index `3 * 0 + 1 = 1`); used to instantiate witnesses. -/
def mEx : StrictlyUpperTriangularMatrix :=
  ⟨3, [false, true, false, false, false, false, false, false, false]⟩

instance (m : StrictlyUpperTriangularMatrix) : Decidable (WF m) :=
  inferInstanceAs (Decidable (m.matrix.length = m.size * m.size ∧
    m.size * m.size < USIZE_SIZE))

/-! ### Helper lemmas about the bit storage -/

theorem bitGet_replicate_false (n k : Nat) :
    bitGet (List.replicate n false) k = false := by
  simp [bitGet, List.getD_eq_getElem?_getD, List.getElem?_replicate]
  split <;> simp

theorem bitGet_set_self (l : List Bool) (k : Nat) (v : Bool) (h : k < l.length) :
    bitGet (l.set k v) k = v := by
  simp [bitGet, List.getD_eq_getElem?_getD, List.getElem?_set_self h]

theorem bitGet_set_other (l : List Bool) (k k' : Nat) (v : Bool) (h : k ≠ k') :
    bitGet (l.set k v) k' = bitGet l k' := by
  simp [bitGet, List.getD_eq_getElem?_getD, List.getElem?_set_ne h]

/-! ### Helper lemmas about the index mapping -/

theorem index_lt (i j size : Nat) (hij : i < j) (hj : j < size) :
    size * i + j < size * size := by
  have h1 : i + 1 ≤ size := by omega
  calc size * i + j < size * i + size := by omega
    _ = size * (i + 1) := by ring
    _ ≤ size * size := Nat.mul_le_mul_left size h1

theorem index_no_wrap (i j size : Nat) (hij : i < j) (hj : j < size)
    (hcap : size * size < USIZE_SIZE) :
    (size * i + j) % USIZE_SIZE = size * i + j :=
  Nat.mod_eq_of_lt (lt_trans (index_lt i j size hij hj) hcap)

theorem index_inj (i1 j1 i2 j2 size : Nat)
    (_h1 : i1 < j1) (h1' : j1 < size) (_h2 : i2 < j2) (h2' : j2 < size)
    (heq : size * i1 + j1 = size * i2 + j2) : i1 = i2 ∧ j1 = j2 := by
  have hs : 0 < size := by omega
  have e1 : (size * i1 + j1) % size = j1 := by
    rw [Nat.mul_add_mod, Nat.mod_eq_of_lt h1']
  have e2 : (size * i2 + j2) % size = j2 := by
    rw [Nat.mul_add_mod, Nat.mod_eq_of_lt h2']
  have hj : j1 = j2 := by rw [← e1, ← e2, heq]
  have hi : i1 = i2 := by
    have : size * i1 = size * i2 := by omega
    exact Nat.eq_of_mul_eq_mul_left hs this
  exact ⟨hi, hj⟩

/-! ### Unfolding lemmas for get and set on valid inputs -/

theorem get_valid (m : StrictlyUpperTriangularMatrix) (i j : Nat)
    (hi : i < m.size) (hj : j < m.size) (hij : i < j) :
    m.get i j =
      Except.ok (bitGet m.matrix ((m.size * i + j) % USIZE_SIZE)) := by
  simp [StrictlyUpperTriangularMatrix.get, get_index_from_row_column,
    hi, hj, hij, Except.map]

theorem get_ok_true_iff (m : StrictlyUpperTriangularMatrix) (u j : Nat)
    (hu : u < m.size) :
    m.get u j = Except.ok true ↔
      j < m.size ∧ u < j ∧
        bitGet m.matrix ((m.size * u + j) % USIZE_SIZE) = true := by
  constructor
  · intro h
    by_cases hj : j < m.size
    · by_cases huj : u < j
      · refine ⟨hj, huj, ?_⟩
        rw [get_valid m u j hu hj huj] at h
        exact Except.ok.inj h
      · exact absurd h (by simp [StrictlyUpperTriangularMatrix.get,
          get_index_from_row_column, hu, hj, huj, Except.map])
    · exact absurd h (by simp [StrictlyUpperTriangularMatrix.get,
        get_index_from_row_column, hu, hj, Except.map])
  · rintro ⟨hj, huj, hb⟩
    rw [get_valid m u j hu hj huj, hb]

theorem set_valid (m : StrictlyUpperTriangularMatrix) (i j : Nat) (v : Bool)
    (hij : i < j) (hj : j < m.size)
    (hlen : (m.size * i + j) % USIZE_SIZE < m.matrix.length) :
    m.set i j v =
      Except.ok (bitGet m.matrix ((m.size * i + j) % USIZE_SIZE),
        ⟨m.size, m.matrix.set ((m.size * i + j) % USIZE_SIZE) v⟩) := by
  have hi : i < m.size := by omega
  simp [StrictlyUpperTriangularMatrix.set, get_index_from_row_column,
    bitSet, hi, hj, hij, hlen, Except.map]

/-! ### Characterization of the neighbour iterator -/

theorem neighboursFrom_eq (m : StrictlyUpperTriangularMatrix) (u : Nat)
    (hu : u < m.size) :
    ∀ k r, m.size - r = k → u < r →
      neighboursFrom m u r =
        Except.ok ((List.range' r (m.size - r)).filter
          (fun j => bitGet m.matrix ((m.size * u + j) % USIZE_SIZE))) := by
  intro k
  induction k with
  | zero =>
    intro r hk _
    rw [neighboursFrom]
    have hr : ¬ r < m.size := by omega
    simp [hr, hk]
  | succ k ih =>
    intro r hk hur
    have hrs : r < m.size := by omega
    rw [neighboursFrom]
    rw [get_valid m u r hu hrs hur]
    have hrange : List.range' r (m.size - r) =
        r :: List.range' (r + 1) (m.size - (r + 1)) := by
      rw [show m.size - r = (m.size - (r + 1)) + 1 by omega, List.range'_succ]
    rw [hrange]
    have hrec := ih (r + 1) (by omega) (by omega)
    cases hb : bitGet m.matrix ((m.size * u + r) % USIZE_SIZE) with
    | true => simp [hrs, hb, hrec, List.filter, Except.map]
    | false => simp [hrs, hb, hrec, List.filter, Except.map]

/-! ### The edges iterator yields nothing once all bits are clear or the
inner cursor is exhausted -/

theorem edgesFrom_exhausted (size : Nat) (bits : List Bool) (j : Nat)
    (hj : size ≤ j) : ∀ k i, size - i = k → edgesFrom size bits i j = Except.ok [] := by
  intro k
  induction k with
  | zero =>
    intro i hk
    rw [edgesFrom]
    simp [show ¬ i < size by omega]
  | succ k ih =>
    intro i hk
    rw [edgesFrom]
    simp [show ¬ j < size by omega]
    intro _
    exact ih (i + 1) (by omega)

theorem edgesFrom_all_false (size : Nat) (bits : List Bool)
    (hbits : ∀ k, bitGet bits k = false) :
    ∀ k j i, size - j = k → i < j → edgesFrom size bits i j = Except.ok [] := by
  intro k
  induction k with
  | zero =>
    intro j i hk hij
    exact edgesFrom_exhausted size bits j (by omega) (size - i) i rfl
  | succ k ih =>
    intro j i hk hij
    have hjs : j < size := by omega
    by_cases hi : i < size
    · rw [edgesFrom]
      simp only [hi, if_true, hjs]
      simp only [get_index_from_row_column, hi, hjs, hij, if_true]
      simp only [hbits, if_false, Bool.false_eq_true]
      exact ih (j + 1) i (by omega) (by omega)
    · rw [edgesFrom]
      simp [hi]

open StrictlyUpperTriangularMatrix

/-- C9 (amended): the index mapping computed by `get_index_from_row_column`
is deterministic, and it is injective on every part of the valid domain
`{(i, j) : i < j < size}` where the `usize` computation `size * i + j` fits
the machine word — in particular on the whole valid domain of every
constructible matrix, whose capacity `size * size` bounds every index: two
distinct such pairs never receive the same linear index. -/
theorem index_mapping_injective (size i1 j1 i2 j2 : Nat)
    (h1 : i1 < j1) (h1' : j1 < size) (h2 : i2 < j2) (h2' : j2 < size)
    (hf1 : size * i1 + j1 < USIZE_SIZE) (hf2 : size * i2 + j2 < USIZE_SIZE)
    (heq : get_index_from_row_column i1 j1 size =
      get_index_from_row_column i2 j2 size) :
    i1 = i2 ∧ j1 = j2 := by
  have e1 : get_index_from_row_column i1 j1 size =
      Except.ok (size * i1 + j1) := by
    simp [get_index_from_row_column, show i1 < size by omega, h1', h1,
      Nat.mod_eq_of_lt hf1]
  have e2 : get_index_from_row_column i2 j2 size =
      Except.ok (size * i2 + j2) := by
    simp [get_index_from_row_column, show i2 < size by omega, h2', h2,
      Nat.mod_eq_of_lt hf2]
  rw [e1, e2] at heq
  exact index_inj i1 j1 i2 j2 size h1 h1' h2 h2' (Except.ok.inj heq)

/-- C9 witness. -/
theorem index_mapping_injective_witness :
    ((0 : Nat) < 1 ∧ 1 < 3 ∧ 3 * 0 + 1 < USIZE_SIZE) ∧
      ((0 : Nat) = 0 ∧ (1 : Nat) = 1) :=
  ⟨⟨by decide, by decide, by decide⟩,
    index_mapping_injective 3 0 1 0 1 (by decide) (by decide) (by decide)
      (by decide) (by decide) (by decide) rfl⟩

/-- C9 counterexample: at `size = 2^63` the distinct valid pairs `(2, 3)`
and `(0, 3)` receive the same computed linear index: the `usize`
computation `2^63 * 2 + 3` wraps to `3` in release builds (and panics in
debug builds), so the claimed injectivity over every size fails. -/
theorem index_mapping_collision_at_overflow :
    ((2 : Nat), (3 : Nat)) ≠ ((0 : Nat), (3 : Nat)) ∧
    (2 : Nat) < 3 ∧ (3 : Nat) < 2 ^ 63 ∧ (0 : Nat) < 3 ∧
    get_index_from_row_column 2 3 (2 ^ 63) =
      get_index_from_row_column 0 3 (2 ^ 63) ∧
    get_index_from_row_column 2 3 (2 ^ 63) = Except.ok 3 :=
  ⟨by decide, by decide, by decide, by decide, rfl, rfl⟩

/-- C10 (amended): whenever the allocated bit capacity `size * size` fits
the machine word — true of every constructible matrix, since `zeroed`
aborts otherwise — the linear index of every valid pair `i < j < size` is
computed without wrapping and is strictly below that capacity, so `get`
and `set` under their preconditions never touch the bit storage out of
bounds. -/
theorem index_within_capacity (size i j : Nat) (hij : i < j) (hj : j < size)
    (hcap : size * size < USIZE_SIZE) :
    get_index_from_row_column i j size = Except.ok (size * i + j) ∧
      size * i + j < size * size := by
  constructor
  · simp [get_index_from_row_column, show i < size by omega, hj, hij,
      index_no_wrap i j size hij hj hcap]
  · exact index_lt i j size hij hj

/-- C10 witness. -/
theorem index_within_capacity_witness :
    3 * 3 < USIZE_SIZE ∧
      (get_index_from_row_column 1 2 3 = Except.ok (3 * 1 + 2) ∧
        3 * 1 + 2 < 3 * 3) :=
  ⟨by decide, index_within_capacity 3 1 2 (by decide) (by decide) (by decide)⟩

/-- C10 counterexample: at `size = 2^32` the valid pair `(1, 2)` has
computed linear index `2^32 + 2`, but the capacity computation
`size * size` overflows the machine word: `zeroed` aborts (debug builds
panic on the multiplication), and the capacity a wrapping release build
would allocate, `(2^32 * 2^32) % USIZE_SIZE = 0`, does not lie above the
index — so the claimed bound `index < size * size` fails at that size
under the program's `usize` arithmetic. -/
theorem index_exceeds_overflowed_capacity :
    get_index_from_row_column 1 2 (2 ^ 32) = Except.ok (2 ^ 32 + 2) ∧
    zeroed (2 ^ 32) = Except.error () ∧
    ¬ 2 ^ 32 + 2 < (2 ^ 32 * 2 ^ 32) % USIZE_SIZE :=
  ⟨rfl, rfl, by decide⟩

/-- C7 (amended): `zeroed(size)` succeeds whenever the capacity computation
`size * size` fits in the machine word, yielding an all-false bit storage of
capacity `size * size`. -/
theorem zeroed_ok_of_no_overflow (size : Nat) (h : size * size < USIZE_SIZE) :
    zeroed size = Except.ok ⟨size, List.replicate (size * size) false⟩ := by
  simp [zeroed, h]

/-- C7 witness. -/
theorem zeroed_ok_of_no_overflow_witness :
    3 * 3 < USIZE_SIZE ∧
      zeroed 3 = Except.ok ⟨3, List.replicate (3 * 3) false⟩ :=
  ⟨by decide, zeroed_ok_of_no_overflow 3 (by decide)⟩

/-- C7 counterexample: when `size * size` exceeds the machine word range
(here `size = 2^32` on a 64-bit target), the capacity computation in
`zeroed` overflows `usize` and construction aborts instead of succeeding. -/
theorem zeroed_overflow_aborts :
    zeroed (2 ^ 32) = Except.error () := rfl

/-- A freshly zeroed 3×3 matrix, used to instantiate witnesses. -/
def zEx : StrictlyUpperTriangularMatrix :=
  ⟨3, List.replicate 9 false⟩

/-- C5: a freshly zero-constructed matrix of any `size ≥ 2` reads `false` at
every valid pair `i < j < size`, and its `iter_ones()` yields the empty
sequence. -/
theorem zeroed_reads_false_and_no_ones (size i j : Nat)
    (m : StrictlyUpperTriangularMatrix) (_hsize : 2 ≤ size) (hij : i < j)
    (hj : j < size) (hz : zeroed size = Except.ok m) :
    m.get i j = Except.ok false ∧ m.iter_ones = Except.ok [] := by
  have hm : m = ⟨size, List.replicate (size * size) false⟩ := by
    by_cases hcap : size * size < USIZE_SIZE
    · rw [zeroed_ok_of_no_overflow size hcap] at hz
      exact (Except.ok.inj hz).symm
    · simp [zeroed, hcap] at hz
  subst hm
  constructor
  · rw [get_valid _ i j (by simpa using by omega) (by simpa using hj) hij]
    simp [bitGet_replicate_false]
  · exact edgesFrom_all_false size _ (fun k => bitGet_replicate_false _ k)
      (size - 1) 1 0 (by simp) (by omega)

/-- C5 witness. -/
theorem zeroed_reads_false_and_no_ones_witness :
    (2 ≤ 3 ∧ 0 < 1 ∧ 1 < 3 ∧ zeroed 3 = Except.ok zEx) ∧
      (zEx.get 0 1 = Except.ok false ∧ zEx.iter_ones = Except.ok []) :=
  ⟨⟨by decide, by decide, by decide, rfl⟩,
    zeroed_reads_false_and_no_ones 3 0 1 zEx (by decide) (by decide)
      (by decide) rfl⟩

/-- C2: on a well-formed matrix, `set(i, j, v)` at a valid pair returns
exactly the value `get(i, j)` reported immediately before the call. -/
theorem set_returns_previous (m : StrictlyUpperTriangularMatrix) (i j : Nat)
    (v : Bool) (hij : i < j) (hj : j < m.size) (hw : WF m) :
    ∃ b m2, m.set i j v = Except.ok (b, m2) ∧ m.get i j = Except.ok b := by
  have hlen : (m.size * i + j) % USIZE_SIZE < m.matrix.length := by
    rw [index_no_wrap i j m.size hij hj hw.2, hw.1]
    exact index_lt i j m.size hij hj
  refine ⟨bitGet m.matrix ((m.size * i + j) % USIZE_SIZE), _,
    set_valid m i j v hij hj hlen, ?_⟩
  exact get_valid m i j (by omega) hj hij

/-- C2 witness. -/
theorem set_returns_previous_witness :
    (0 < 1 ∧ 1 < mEx.size ∧ WF mEx) ∧
      (∃ b m2, mEx.set 0 1 false = Except.ok (b, m2) ∧
        mEx.get 0 1 = Except.ok b) :=
  ⟨⟨by decide, by decide, by decide⟩,
    set_returns_previous mEx 0 1 false (by decide) (by decide) (by decide)⟩

/-- C3: on a well-formed matrix, writing `true` at a valid pair makes
`get(i, j)` read `true`, and a subsequent write of `false` makes it read
`false`. -/
theorem set_then_get_reads_back (m : StrictlyUpperTriangularMatrix)
    (i j : Nat) (hij : i < j) (hj : j < m.size) (hw : WF m) :
    ∃ b1 m1 b2 m2,
      m.set i j true = Except.ok (b1, m1) ∧ m1.get i j = Except.ok true ∧
      m1.set i j false = Except.ok (b2, m2) ∧ m2.get i j = Except.ok false := by
  have hlen : (m.size * i + j) % USIZE_SIZE < m.matrix.length := by
    rw [index_no_wrap i j m.size hij hj hw.2, hw.1]
    exact index_lt i j m.size hij hj
  have hlen1 : (m.size * i + j) % USIZE_SIZE <
      (m.matrix.set ((m.size * i + j) % USIZE_SIZE) true).length := by
    simpa using hlen
  refine ⟨bitGet m.matrix ((m.size * i + j) % USIZE_SIZE),
    ⟨m.size, m.matrix.set ((m.size * i + j) % USIZE_SIZE) true⟩,
    bitGet (m.matrix.set ((m.size * i + j) % USIZE_SIZE) true)
      ((m.size * i + j) % USIZE_SIZE),
    ⟨m.size, (m.matrix.set ((m.size * i + j) % USIZE_SIZE) true).set
      ((m.size * i + j) % USIZE_SIZE) false⟩,
    set_valid m i j true hij hj hlen, ?_, ?_, ?_⟩
  · have h := get_valid
      ⟨m.size, m.matrix.set ((m.size * i + j) % USIZE_SIZE) true⟩ i j
      (show i < m.size by omega) hj hij
    simpa [bitGet_set_self _ _ _ hlen] using h
  · exact set_valid
      ⟨m.size, m.matrix.set ((m.size * i + j) % USIZE_SIZE) true⟩ i j false
      hij hj hlen1
  · have h := get_valid
      ⟨m.size, (m.matrix.set ((m.size * i + j) % USIZE_SIZE) true).set
        ((m.size * i + j) % USIZE_SIZE) false⟩
      i j (show i < m.size by omega) hj hij
    simpa [bitGet_set_self _ _ _ hlen, bitGet_set_self _ _ _ hlen1] using h

/-- C3 witness. -/
theorem set_then_get_reads_back_witness :
    (0 < 1 ∧ 1 < mEx.size ∧ WF mEx) ∧
      (∃ b1 m1 b2 m2,
        mEx.set 0 1 true = Except.ok (b1, m1) ∧ m1.get 0 1 = Except.ok true ∧
        m1.set 0 1 false = Except.ok (b2, m2) ∧
        m2.get 0 1 = Except.ok false) :=
  ⟨⟨by decide, by decide, by decide⟩,
    set_then_get_reads_back mEx 0 1 (by decide) (by decide) (by decide)⟩

/-- C8: on a well-formed matrix, a successful `set(i, j, v)` leaves the
`size` field unchanged and leaves `get` unchanged at every other valid
pair. -/
theorem set_frames_other_entries (m : StrictlyUpperTriangularMatrix)
    (i j : Nat) (v : Bool) (b : Bool) (m2 : StrictlyUpperTriangularMatrix)
    (hij : i < j) (hj : j < m.size) (hw : WF m)
    (hset : m.set i j v = Except.ok (b, m2)) :
    m2.size = m.size ∧
      ∀ i' j', i' < j' → j' < m.size → (i', j') ≠ (i, j) →
        m2.get i' j' = m.get i' j' := by
  have hlen : (m.size * i + j) % USIZE_SIZE < m.matrix.length := by
    rw [index_no_wrap i j m.size hij hj hw.2, hw.1]
    exact index_lt i j m.size hij hj
  rw [set_valid m i j v hij hj hlen] at hset
  have hpair := Except.ok.inj hset
  have hm2 : m2 = ⟨m.size, m.matrix.set ((m.size * i + j) % USIZE_SIZE) v⟩ :=
    (congrArg Prod.snd hpair).symm
  subst hm2
  refine ⟨rfl, ?_⟩
  intro i' j' hij' hj' hne
  have hkk : (m.size * i + j) % USIZE_SIZE ≠
      (m.size * i' + j') % USIZE_SIZE := by
    rw [index_no_wrap i j m.size hij hj hw.2,
      index_no_wrap i' j' m.size hij' hj' hw.2]
    intro hcontra
    rcases index_inj i j i' j' m.size hij hj hij' hj' hcontra with ⟨hi, hjj⟩
    exact hne (by simp [hi, hjj])
  have hA := get_valid
    ⟨m.size, m.matrix.set ((m.size * i + j) % USIZE_SIZE) v⟩ i' j'
    (show i' < m.size by omega) hj' hij'
  have hB := get_valid m i' j' (by omega) hj' hij'
  rw [hB]
  simpa [bitGet_set_other _ _ _ _ hkk] using hA

/-- C8 witness. -/
theorem set_frames_other_entries_witness :
    (0 < 1 ∧ 1 < mEx.size ∧ WF mEx ∧
        mEx.set 0 1 true = Except.ok (true, mEx)) ∧
      (mEx.size = mEx.size ∧
        ∀ i' j', i' < j' → j' < mEx.size → (i', j') ≠ (0, 1) →
          mEx.get i' j' = mEx.get i' j') :=
  ⟨⟨by decide, by decide, by decide, rfl⟩,
    set_frames_other_entries mEx 0 1 true true mEx (by decide) (by decide)
      (by decide) rfl⟩

/-- C6: on a well-formed matrix, `get(i, j)` and `set(i, j, v)` succeed
exactly when `i < size`, `j < size` and `i < j`, and `iter_neighbours(u)`
succeeds exactly when `u < size`; each aborts otherwise. -/
theorem aborts_exactly_on_precondition_violation
    (m : StrictlyUpperTriangularMatrix) (i j u : Nat) (v : Bool) (hw : WF m) :
    ((∃ b, m.get i j = Except.ok b) ↔ (i < m.size ∧ j < m.size ∧ i < j)) ∧
    ((∃ r, m.set i j v = Except.ok r) ↔ (i < m.size ∧ j < m.size ∧ i < j)) ∧
    ((∃ L, m.iter_neighbours u = Except.ok L) ↔ u < m.size) := by
  refine ⟨?_, ?_, ?_⟩
  · constructor
    · rintro ⟨b, hb⟩
      simp only [StrictlyUpperTriangularMatrix.get, get_index_from_row_column,
        Except.map] at hb
      split_ifs at hb with hi hj hij
      exact ⟨hi, hj, hij⟩
    · rintro ⟨hi, hj, hij⟩
      exact ⟨_, get_valid m i j hi hj hij⟩
  · constructor
    · rintro ⟨r, hr⟩
      simp only [StrictlyUpperTriangularMatrix.set, get_index_from_row_column] at hr
      split_ifs at hr with hi hj hij
      exact ⟨hi, hj, hij⟩
    · rintro ⟨hi, hj, hij⟩
      have hlen : (m.size * i + j) % USIZE_SIZE < m.matrix.length := by
        rw [index_no_wrap i j m.size hij hj hw.2, hw.1]
        exact index_lt i j m.size hij hj
      exact ⟨_, set_valid m i j v hij hj hlen⟩
  · constructor
    · rintro ⟨L, hL⟩
      by_contra hu
      simp [StrictlyUpperTriangularMatrix.iter_neighbours, hu] at hL
    · intro hu
      have h := neighboursFrom_eq m u hu _ (u + 1) rfl (by omega)
      exact ⟨_, by
        simp only [StrictlyUpperTriangularMatrix.iter_neighbours, if_pos hu]
        exact h⟩

/-- C6 witness. -/
theorem aborts_exactly_on_precondition_violation_witness :
    WF mEx ∧
      (((∃ b, mEx.get 0 1 = Except.ok b) ↔
          (0 < mEx.size ∧ 1 < mEx.size ∧ 0 < 1)) ∧
        ((∃ r, mEx.set 0 1 true = Except.ok r) ↔
          (0 < mEx.size ∧ 1 < mEx.size ∧ 0 < 1)) ∧
        ((∃ L, mEx.iter_neighbours 2 = Except.ok L) ↔ 2 < mEx.size)) :=
  ⟨by decide,
    aborts_exactly_on_precondition_violation mEx 0 1 2 true (by decide)⟩

/-- C4: for every vertex `u < size`, `iter_neighbours(u)` yields exactly the
set of columns `j > u` whose entry `get(u, j)` is `true`, in strictly
ascending order (hence with no duplicates). -/
theorem iter_neighbours_yields_exactly_neighbours
    (m : StrictlyUpperTriangularMatrix) (u : Nat) (hu : u < m.size) :
    ∃ L, m.iter_neighbours u = Except.ok L ∧
      (∀ j, j ∈ L ↔ (u < j ∧ m.get u j = Except.ok true)) ∧
      L.Pairwise (· < ·) := by
  refine ⟨(List.range' (u + 1) (m.size - (u + 1))).filter
      (fun j => bitGet m.matrix ((m.size * u + j) % USIZE_SIZE)), ?_, ?_, ?_⟩
  · simp only [StrictlyUpperTriangularMatrix.iter_neighbours, if_pos hu]
    exact neighboursFrom_eq m u hu _ (u + 1) rfl (by omega)
  · intro j
    rw [List.mem_filter, List.mem_range'_1, get_ok_true_iff m u j hu]
    constructor
    · rintro ⟨⟨hj1, hj2⟩, hb⟩
      exact ⟨by omega, by omega, by omega, hb⟩
    · rintro ⟨huj, hjs, _, hb⟩
      exact ⟨⟨by omega, by omega⟩, hb⟩
  · exact (List.pairwise_lt_range' (u + 1) (m.size - (u + 1))).filter _

/-- C4 witness. -/
theorem iter_neighbours_yields_exactly_neighbours_witness :
    0 < mEx.size ∧
      (∃ L, mEx.iter_neighbours 0 = Except.ok L ∧
        (∀ j, j ∈ L ↔ (0 < j ∧ mEx.get 0 j = Except.ok true)) ∧
        L.Pairwise (· < ·)) :=
  ⟨by decide, iter_neighbours_yields_exactly_neighbours mEx 0 (by decide)⟩

/-- C1 (the code, evaluated at the failing input): on the 3×3 matrix whose
only set entry is `(1, 2)` — built by `from_ones(3, [(1, 2)])`, and indeed
`get(1, 2)` returns `true` — `iter_ones()` yields the empty sequence rather
than `[(1, 2)]`, because `EdgesIterator::next` never resets the inner
cursor `j` when advancing to the next row, so every row after row 0 is
skipped. -/
theorem iter_ones_skips_rows_after_the_first :
    (from_ones 3 [(1, 2)]).map (fun m => (m.iter_ones, m.get 1 2)) =
      Except.ok (Except.ok [], Except.ok true) := by
  simp [from_ones, zeroed, StrictlyUpperTriangularMatrix.set,
    StrictlyUpperTriangularMatrix.get, StrictlyUpperTriangularMatrix.iter_ones,
    edgesFrom, get_index_from_row_column, bitSet, bitGet, USIZE_SIZE,
    List.foldlM, Except.map, List.replicate, List.getD]
